import Mathlib

/-!
Verification of the core algorithmic logic of the audiobook subtitler
(src/main.py): text segmentation (`split_line`, `read_chapter`), transcript
matching (`match_files_transcriptions`), subtitle timing adjustment
(`pad_srt`), the skip-if-exists policy of `align_chapter`/`align_book`, and
the table-of-contents confirmation prompt of `read_ebook_toc`.

Strings are embedded as `List Char` (Python indexes strings by code point,
as `List Char` does).  External collaborators (BeautifulSoup markup
stripping, whisper transcription/alignment, thefuzz similarity scoring,
the srt parser, the filesystem) are modelled as function parameters or as
explicit data, as noted on each definition.
-/

set_option maxHeartbeats 1000000

/-- Maximum display length of one subtitle line, `MAX_LINE_LENGTH = 40`
in src/main.py. -/
def MAX_LINE_LENGTH : Nat := 40

/-- Membership in the character class `[、〜：！？）」〉]`, the first
alternative of the `LINE_DELINEATORS` regex (src/main.py line 28). -/
def isPunct1 (c : Char) : Bool :=
  c == '、' || c == '〜' || c == '：' || c == '！' || c == '？' ||
  c == '）' || c == '」' || c == '〉'

/-- Membership in `(─|…)`, the second alternative of `LINE_DELINEATORS`. -/
def isDash (c : Char) : Bool := c == '─' || c == '…'

/-- Membership in `[\r\n]`, the third alternative of `LINE_DELINEATORS`. -/
def isNl (c : Char) : Bool := c == '\r' || c == '\n'

/-- Length of the longest prefix of the list all of whose characters
satisfy `p`; used for the greedy runs `(─|…)+` and `[\r\n]+`. -/
def runLen (p : Char → Bool) : List Char → Nat
  | [] => 0
  | c :: cs => if p c then runLen p cs + 1 else 0

/-- Fuelled scanner producing the list of `m.end()` positions of
`LINE_DELINEATORS.finditer` (src/main.py line 45) on the suffix that starts
at absolute position `i`.  At each position the regex alternatives are
tried in order: a `[、〜：！？）」〉]` character (with an optional,
greedily taken following `」`), a greedy `(─|…)+` run, a greedy `[\r\n]+`
run; a character matching none of them is skipped.  Any `fuel` of at least
the list length gives the true answer (`scanF_congr` below). -/
def scanF : Nat → List Char → Nat → List Nat
  | 0, _, _ => []
  | _ + 1, [], _ => []
  | fuel + 1, c :: cs, i =>
    if isPunct1 c then
      if cs.head? = some '」' then (i + 2) :: scanF fuel cs.tail (i + 2)
      else (i + 1) :: scanF fuel cs (i + 1)
    else if isDash c then
      (i + 1 + runLen isDash cs) ::
        scanF fuel (cs.drop (runLen isDash cs)) (i + 1 + runLen isDash cs)
    else if isNl c then
      (i + 1 + runLen isNl cs) ::
        scanF fuel (cs.drop (runLen isNl cs)) (i + 1 + runLen isNl cs)
    else scanF fuel cs (i + 1)

/-- End positions of the delineator matches found from absolute
position `i`. -/
def scanFrom (l : List Char) (i : Nat) : List Nat := scanF l.length l i

/-- End positions of all `LINE_DELINEATORS` matches in `l`, in document
order: the `m.end()` values of `LINE_DELINEATORS.finditer(line)`. -/
def lineEnds (l : List Char) : List Nat := scanFrom l 0

/-- Doubled distance from the candidate split position `e` to the midpoint
of a line of length `n`: `|2e - n| = 2 * abs(e - n/2)`, written with
truncated subtraction (one summand is always zero).  Python compares
`abs(m.end() - len(line)/2)` with exact float arithmetic (all values are
multiples of 0.5 well below 2^52), so comparisons of `key` agree with the
source. -/
def key (n e : Nat) : Nat := (2 * e - n) + (n - 2 * e)

/-- The element of the list whose `key` is smallest, the earliest one on
ties: mirrors `matches[pos.index(min(pos))].end()` (src/main.py line 50),
since Python's `min`/`list.index` both pick the first occurrence. -/
def pickSplit (n : Nat) : List Nat → Option Nat
  | [] => none
  | e :: es =>
    match pickSplit n es with
    | none => some e
    | some b => if key n e ≤ key n b then some e else some b

/-- Fuelled version of `split_line` (src/main.py lines 37-55): a line of
length at most `MAX_LINE_LENGTH` or with no delineator match is returned
unchanged; otherwise the match end closest to the midpoint is chosen, the
line is returned unchanged when that split position is `>= len(line)-1`,
and otherwise the line is cut there and both halves are processed
recursively, joined by `"\n"`.  Any fuel of at least the line's length
gives the true answer (`splitLineF_congr` below). -/
def splitLineF : Nat → List Char → List Char
  | 0, l => l
  | fuel + 1, l =>
    if l.length ≤ MAX_LINE_LENGTH then l
    else
      match pickSplit l.length (lineEnds l) with
      | none => l
      | some s =>
        if l.length - 1 ≤ s then l
        else splitLineF fuel (l.take s) ++ '\n' :: splitLineF fuel (l.drop s)

/-- The function `split_line` of src/main.py, on code-point lists. -/
def split_line (l : List Char) : List Char := splitLineF l.length l

/-- The maximal `'\n'`-free segments of a string, i.e. the lines of the
text in which `split_line` inserts its `"\n"` breaks (what the spec calls
"a line of the result").  `pieces "ab\ncd" = ["ab", "cd"]`, and a string
without `'\n'` is one single piece. -/
def pieces : List Char → List (List Char)
  | [] => [[]]
  | c :: cs =>
    if c = '\n' then [] :: pieces cs
    else
      match pieces cs with
      | [] => [[c]]
      | p :: ps => (c :: p) :: ps

/-- Statement that every delineator match of `l` ends at position
`l.length - 1` or later — the "split point at the very end" situation in
which `split_line` returns a long line unchanged. -/
def endsLate (l : List Char) : Prop := ∀ e ∈ lineEnds l, l.length - 1 ≤ e

/-- Splitting of a chapter text by `SENTENCE_END = r"\n|(?<=。)"` as done
by `re.split` (src/main.py line 66): scanning left to right, a `'\n'` is
consumed and cuts the text, and a zero-width match cuts the text after
every `'。'` (the `'\n'` alternative is tried first; an empty match is
never attempted twice at one position because after a zero-width cut the
next character is consumed into the new segment).  `acc` is the reversed
text of the segment being built and `prev` the previously consumed
character. -/
def sentencePieces : List Char → Option Char → List Char → List (List Char)
  | acc, prev, [] =>
    if prev = some '。' then [acc.reverse, []] else [acc.reverse]
  | acc, prev, c :: cs =>
    if c = '\n' then acc.reverse :: sentencePieces [] (some '\n') cs
    else if prev = some '。' then acc.reverse :: sentencePieces [c] (some c) cs
    else sentencePieces (c :: acc) (some c) cs

/-- The text-processing part of `read_chapter` (src/main.py lines 57-70),
applied to the plain text extracted by BeautifulSoup's `get_text`
(external markup stripping; on tag-free input `get_text` is the
identity).  Line 65 of the source, `text.replace('　', "")`, discards
the replaced string (Python strings are immutable and the result is not
assigned), so it is a no-op and contributes nothing here: the text is
split into sentences, empty segments are dropped, each sentence goes
through `split_line`, and the results are joined by `"\n"`. -/
def read_chapter (text : List Char) : List Char :=
  List.intercalate ['\n']
    (((sentencePieces [] none text).filter (fun l => !l.isEmpty)).map split_line)

/-- One subtitle cue as handled by `pad_srt`: a start time and an end time
(microseconds, the resolution of Python's `datetime.timedelta`) and the
cue text.  The field `stop` embeds the source's `end` attribute (`end` is
reserved in Lean). -/
structure Cue where
  start : Int
  stop : Int
  content : List Char
deriving DecidableEq, Repr

/-- `PAD_SECONDS = .25` of src/main.py as a `timedelta`: 250000 µs. -/
def PAD_MICROSECONDS : Int := 250000

/-- The while-loop of `pad_srt` (src/main.py lines 221-232): every cue
except the last gets `min(padtime, next.start - cur.end)` added to its end
(the loop reads each cue's end before ever padding it, and start times are
never written), and after the loop the last cue's end gets the full
`padtime`. -/
def padLoop (pad : Int) : List Cue → List Cue
  | [] => []
  | [c] => [{ c with stop := c.stop + pad }]
  | c :: c2 :: rest =>
    { c with stop := c.stop + min pad (c2.start - c.stop) } ::
      padLoop pad (c2 :: rest)

/-- The function `pad_srt` of src/main.py on the parsed cue list
(`srt.parse`/`srt.compose` are external and faithful).  On an empty cue
list the source's final statement `lines[i].end += padtime` evaluates
`lines[0]` and raises `IndexError`; the `none` result embeds that
failure. -/
def pad_srt : List Cue → Option (List Cue)
  | [] => none
  | c :: rest => some (padLoop PAD_MICROSECONDS (c :: rest))

/-- Per-audio-file matching state of `match_files_transcriptions`
(src/main.py lines 185-207): the dict entry
`{'chapter': "", 'best': 0, 'second': 0}` built by
`transcribe_audiobook`. -/
structure MatchState where
  best : Nat
  second : Nat
  chapter : List Char
deriving DecidableEq, Repr

/-- Initial matching state: `best = 0`, `second = 0`, `chapter = ""`. -/
def matchInit : MatchState := ⟨0, 0, []⟩

/-- One iteration of the inner loop of `match_files_transcriptions`:
`ratio = fuzz.ratio(transcript, book_chapter)` is abstracted as
`score book_chapter` (thefuzz is external; its scores are naturals in
[0, 100], of which only nonnegativity matters below). -/
def matchStep (score : List Char → Nat) (st : MatchState) (ch : List Char) :
    MatchState :=
  let ratio := score ch
  if st.best < ratio then ⟨ratio, st.best, ch⟩
  else if st.second < ratio then ⟨st.best, ratio, st.chapter⟩
  else st

/-- The chapter loop of `match_files_transcriptions` for one audio file:
fold `matchStep` over all book chapters starting from `matchInit`. -/
def match_files_transcriptions (score : List Char → Nat)
    (chapters : List (List Char)) : MatchState :=
  chapters.foldl (matchStep score) matchInit

/-- Result of one `align_chapter` call (src/main.py lines 236-253) against
a filesystem modelled as an association list from file name to content:
the filesystem afterwards, whether `model.align` was invoked, and the file
written (if any). -/
structure AlignOutcome where
  fs : List (String × String)
  invoked : Bool
  written : Option (String × String)
deriving DecidableEq, Repr

/-- The function `align_chapter`: if the destination subtitle file already
exists it returns at once — no model load, no alignment, no write —
otherwise it aligns and writes the resulting subtitle file.  `outFile` is
the computed `(output_dir / stem).with_suffix(".srt")` and `srtOut` the
`pad_srt`-processed aligner output (path arithmetic and the aligner are
external). -/
def align_chapter (fs : List (String × String)) (outFile : String)
    (srtOut : String) : AlignOutcome :=
  if outFile ∈ fs.map Prod.fst then ⟨fs, false, none⟩
  else ⟨fs ++ [(outFile, srtOut)], true, some (outFile, srtOut)⟩

/-- The loop of `align_book` (src/main.py lines 256-271): run
`align_chapter` on each (audio file, chapter text) pair in order,
threading the filesystem; returns the final filesystem and the audio files
for which the aligner was actually invoked.  `outName` computes the
destination subtitle name from the audio path and `srtFor` the subtitle
content produced for a pair (both external to the skip logic). -/
def align_book (outName : String → String) (srtFor : String → String → String) :
    List (String × String) → List (String × String) →
    List (String × String) × List String
  | fs, [] => (fs, [])
  | fs, (path, text) :: rest =>
    let r := align_chapter fs (outName path) (srtFor path text)
    let nxt := align_book outName srtFor r.fs rest
    (nxt.1, (if r.invoked then [path] else []) ++ nxt.2)

/-- ASCII lowercasing of one character, the part of Python's `str.lower`
relevant to comparing with the literal `"n"` (no character outside
`A`-`Z` lowercases to `'n'`). -/
def pyLower (c : Char) : Char :=
  if 'A' ≤ c ∧ c ≤ 'Z' then Char.ofNat (c.toNat + 32) else c

/-- One row of the `match_list` built by `read_ebook_toc` (src/main.py
line 113): audio path, resolved chapter link, raw table-of-contents href,
and link display text. -/
structure TocMatch where
  path : String
  link : String
  tableLink : String
  linkText : String

/-- The confirmation step of `read_ebook_toc` (src/main.py lines 116-129):
after printing the proposed `match_list`, the operator's `answer` is read;
the function returns `None` exactly when `answer.lower() == "n"`, and on
every other input builds and returns the (path, chapter text) list.
`chapterTextOf` abstracts `read_chapter(ebook.get_item_with_href(link)
.get_content())` (ebook access is external). -/
def read_ebook_toc (rows : List TocMatch)
    (chapterTextOf : String → List Char) (answer : String) :
    Option (List (String × List Char)) :=
  if answer.toList.map pyLower = ['n'] then none
  else some (rows.map (fun m => (m.path, chapterTextOf m.link)))

/-! ### Lemmas about the timing adjuster -/

theorem padLoop_head_start (p : Int) (c : Cue) (l : List Cue) :
    ∃ d t, padLoop p (c :: l) = d :: t ∧ d.start = c.start := by
  cases l with
  | nil => exact ⟨_, _, rfl, rfl⟩
  | cons c2 rest => exact ⟨_, _, rfl, rfl⟩

theorem padLoop_good (p : Int) (hp : 0 ≤ p) :
    ∀ cues : List Cue,
      List.Chain' (fun a b => a.start ≤ b.start ∧ a.stop ≤ b.start) cues →
      List.Chain' (fun a b => a.stop ≤ b.start) (padLoop p cues) ∧
      List.Forall₂ (fun a b => a.stop ≤ b.stop) cues (padLoop p cues) := by
  intro cues
  induction cues with
  | nil => intro _; exact ⟨List.chain'_nil, List.Forall₂.nil⟩
  | cons c rest ih =>
    intro h
    cases rest with
    | nil =>
      refine ⟨List.chain'_singleton _, List.Forall₂.cons ?_ List.Forall₂.nil⟩
      show c.stop ≤ c.stop + p
      omega
    | cons c2 rest2 =>
      have hcc2 : c.start ≤ c2.start ∧ c.stop ≤ c2.start := (List.chain'_cons.mp h).1
      have htail := (List.chain'_cons.mp h).2
      obtain ⟨ih1, ih2⟩ := ih htail
      obtain ⟨d, t, hdt, hds⟩ := padLoop_head_start p c2 rest2
      have hmin1 : min p (c2.start - c.stop) ≤ c2.start - c.stop := min_le_right _ _
      have hmin0 : 0 ≤ min p (c2.start - c.stop) := le_min hp (by omega)
      constructor
      · show List.Chain' _
          ({ c with stop := c.stop + min p (c2.start - c.stop) } :: padLoop p (c2 :: rest2))
        rw [hdt]
        refine List.chain'_cons.mpr ⟨?_, ?_⟩
        · show c.stop + min p (c2.start - c.stop) ≤ d.start
          rw [hds]; omega
        · rw [← hdt]; exact ih1
      · exact List.Forall₂.cons (by show c.stop ≤ c.stop + _; omega) ih2

/-- C1: for every cue sequence satisfying the pre-adjustment invariant
(non-decreasing start order and no overlap, `end(i) <= start(i+1)`), when
`pad_srt` produces an output it satisfies `end(i) <= start(i+1)` for every
adjacent pair, and every adjusted end is at least the original end. -/
theorem C1_pad_srt_invariants (cues out : List Cue)
    (hpre : List.Chain' (fun a b => a.start ≤ b.start ∧ a.stop ≤ b.start) cues)
    (hout : pad_srt cues = some out) :
    List.Chain' (fun a b => a.stop ≤ b.start) out ∧
    List.Forall₂ (fun a b => a.stop ≤ b.stop) cues out := by
  cases cues with
  | nil => simp [pad_srt] at hout
  | cons c rest =>
    have h := padLoop_good PAD_MICROSECONDS (by norm_num [PAD_MICROSECONDS])
      (c :: rest) hpre
    have hout' : out = padLoop PAD_MICROSECONDS (c :: rest) := by
      simpa [pad_srt] using hout.symm
    rw [hout']
    exact h

/-- Witness for C1 at the concrete cue list [(0s, 0.00001s), (1s, 2s)]. -/
theorem C1_pad_srt_invariants_witness :
    List.Chain' (fun a b : Cue => a.stop ≤ b.start)
      [Cue.mk 0 250010 [], Cue.mk 1000000 2250000 []] ∧
    List.Forall₂ (fun a b : Cue => a.stop ≤ b.stop)
      [Cue.mk 0 10 [], Cue.mk 1000000 2000000 []]
      [Cue.mk 0 250010 [], Cue.mk 1000000 2250000 []] :=
  C1_pad_srt_invariants _ _
    (List.chain'_cons.mpr ⟨⟨by norm_num, by norm_num⟩, List.chain'_singleton _⟩)
    (by decide)

/-- C4: `padLoop` (the loop of `pad_srt`) maps cue `i` to the same cue
with `min(pad, gap)` added to its end when a successor exists, and with
the full pad added when it is the last cue; starts (and texts) are
untouched.  In particular `[(0,10),(12,20)]` with pad 3 becomes
`[(0,12),(12,23)]`, and `pad_srt` is this loop at `PAD_SECONDS` on any
nonempty input. -/
theorem C4_pad_amounts :
    (∀ (pad : Int) (cues : List Cue) (i : Nat),
      (padLoop pad cues)[i]? = cues[i]?.map (fun c =>
        match cues[i+1]? with
        | some c2 => { c with stop := c.stop + min pad (c2.start - c.stop) }
        | none => { c with stop := c.stop + pad })) ∧
    padLoop 3 [Cue.mk 0 10 [], Cue.mk 12 20 []] =
      [Cue.mk 0 12 [], Cue.mk 12 23 []] ∧
    (∀ (c : Cue) (rest : List Cue),
      pad_srt (c :: rest) = some (padLoop PAD_MICROSECONDS (c :: rest))) := by
  refine ⟨?_, by decide, fun c rest => rfl⟩
  intro pad cues
  induction cues with
  | nil => intro i; simp [padLoop]
  | cons c rest ih =>
    intro i
    cases rest with
    | nil =>
      cases i with
      | zero => simp [padLoop]
      | succ j => simp [padLoop]
    | cons c2 rest2 =>
      cases i with
      | zero => simp [padLoop]
      | succ j => simpa [padLoop] using ih j

/-- C10: `pad_srt` on an input with zero cues does not produce a result:
after the skipped while-loop the source evaluates `lines[0]`, which
raises `IndexError` on an empty list (embedded as `none`), rather than
yielding an empty output. -/
theorem C10_pad_srt_empty : pad_srt [] = none := rfl

/-- C3: at the chapter text `"　あ。"` (full-width space, あ, 。) the
output of `read_chapter` still contains the full-width space U+3000 —
in fact it is returned verbatim — because line 65 of src/main.py,
`text.replace('　', "")`, discards its result.  The spec says the
character is removed; the dead replace call shows that was the intent
and the code a slip. -/
theorem C3_fullwidth_space_kept :
    read_chapter (String.toList "　あ。") = String.toList "　あ。" ∧
    '　' ∈ read_chapter (String.toList "　あ。") := by
  exact ⟨by decide, by decide⟩

/-! ### Lemmas about the transcript matcher -/

theorem matchStep_best (score : List Char → Nat) (st : MatchState)
    (ch : List Char) : (matchStep score st ch).best = max st.best (score ch) := by
  simp only [matchStep]
  split
  · simp <;> omega
  · split <;> simp <;> omega

theorem match_foldl_main (score : List Char → Nat) :
    ∀ (chs : List (List Char)) (st : MatchState), st.second ≤ st.best →
      (List.foldl (matchStep score) st chs).second ≤
        (List.foldl (matchStep score) st chs).best ∧
      (List.foldl (matchStep score) st chs).best =
        (chs.map score).foldl max st.best ∧
      ((List.foldl (matchStep score) st chs).chapter = st.chapter ∧
         (List.foldl (matchStep score) st chs).best = st.best ∨
       (List.foldl (matchStep score) st chs).chapter ∈ chs ∧
         score (List.foldl (matchStep score) st chs).chapter =
           (List.foldl (matchStep score) st chs).best) := by
  intro chs
  induction chs with
  | nil => intro st h; exact ⟨h, rfl, Or.inl ⟨rfl, rfl⟩⟩
  | cons ch rest ih =>
    intro st h
    simp only [List.foldl_cons, List.map_cons]
    have hstep : (matchStep score st ch).second ≤ (matchStep score st ch).best := by
      by_cases hb1 : st.best < score ch
      · simp [matchStep, hb1]
        omega
      · by_cases hb2 : st.second < score ch
        · simp [matchStep, hb1, hb2]
          omega
        · simpa [matchStep, hb1, hb2] using h
    obtain ⟨h1, h2, h3⟩ := ih (matchStep score st ch) hstep
    refine ⟨h1, ?_, ?_⟩
    · rw [h2, matchStep_best]
    · rcases h3 with ⟨hc, hb⟩ | ⟨hc, hb⟩
      · by_cases hlt : st.best < score ch
        · refine Or.inr ⟨?_, ?_⟩
          · rw [hc]; simp [matchStep, hlt]
          · rw [hc, hb]; simp [matchStep, hlt]
        · left
          have hstc : (matchStep score st ch).chapter = st.chapter := by
            simp only [matchStep]; split
            · omega
            · split <;> rfl
          have hstb : (matchStep score st ch).best = st.best := by
            rw [matchStep_best]; omega
          exact ⟨hc.trans hstc, hb.trans hstb⟩
      · exact Or.inr ⟨List.mem_cons_of_mem _ hc, hb⟩

/-- C5 counterexample: with a similarity scorer that gives every chapter
score 0 (permitted: scores are only promised to lie in [0, 100]) and the
single chapter `"a"`, that chapter achieves the final best score, yet the
recorded chapter is the initial placeholder `""`, not `"a"`: the claim
that the recorded chapter equals the chapter achieving the best score
fails. -/
theorem C5_counterexample :
    (match_files_transcriptions (fun _ => 0) [['a']]).best = (fun _ => 0) ['a'] ∧
    (match_files_transcriptions (fun _ => 0) [['a']]).chapter ≠ ['a'] := by
  exact ⟨by decide, by decide⟩

/-- C5 (amended): after processing any chapter list (hence also after
each update, taking the list to be any processed prefix),
`best >= second` holds and `best` equals the maximum similarity score
seen (with the initial 0); and whenever some chapter scored above the
initial value 0, the recorded chapter is one of the chapters and achieves
`best`.  When every chapter scores 0 the recorded chapter remains the
initial placeholder `""`, which is what the original claim missed. -/
theorem C5_matcher_invariants (score : List Char → Nat)
    (chs : List (List Char)) :
    (match_files_transcriptions score chs).second ≤
      (match_files_transcriptions score chs).best ∧
    (match_files_transcriptions score chs).best =
      (chs.map score).foldl max 0 ∧
    (0 < (match_files_transcriptions score chs).best →
      (match_files_transcriptions score chs).chapter ∈ chs ∧
      score (match_files_transcriptions score chs).chapter =
        (match_files_transcriptions score chs).best) := by
  obtain ⟨h1, h2, h3⟩ :=
    match_foldl_main score chs matchInit (Nat.le_refl 0)
  simp only [match_files_transcriptions]
  refine ⟨h1, by simpa [matchInit] using h2, ?_⟩
  intro hpos
  rcases h3 with ⟨_, hb⟩ | h
  · rw [hb] at hpos
    simp [matchInit] at hpos
  · exact h

/-- Witness for C5 (amended) with the length scorer on chapters
`["a", "ab"]`: best 2, second 1, recorded chapter `"ab"`. -/
theorem C5_matcher_invariants_witness :
    (match_files_transcriptions (fun l => l.length) [['a'], ['a', 'b']]).second ≤
      (match_files_transcriptions (fun l => l.length) [['a'], ['a', 'b']]).best ∧
    (match_files_transcriptions (fun l => l.length) [['a'], ['a', 'b']]).best =
      ([['a'], ['a', 'b']].map (fun l : List Char => l.length)).foldl max 0 ∧
    ((match_files_transcriptions (fun l => l.length) [['a'], ['a', 'b']]).chapter ∈
        [['a'], ['a', 'b']] ∧
      (match_files_transcriptions (fun l => l.length)
          [['a'], ['a', 'b']]).chapter.length =
        (match_files_transcriptions (fun l => l.length) [['a'], ['a', 'b']]).best) := by
  obtain ⟨h1, h2, h3⟩ :=
    C5_matcher_invariants (fun l => l.length) [['a'], ['a', 'b']]
  exact ⟨h1, h2, h3 (by decide)⟩

/-! ### The skip-if-exists policy of alignment -/

/-- C8: when the destination subtitle file already exists,
`align_chapter` returns with the filesystem unchanged, the aligner not
invoked, and nothing written; consequently a re-run of `align_book` in
which every pair's output file exists leaves the filesystem exactly as it
was and invokes the aligner zero times. -/
theorem C8_skip_existing :
    (∀ (fs : List (String × String)) (outFile srtOut : String),
      outFile ∈ fs.map Prod.fst →
      align_chapter fs outFile srtOut = ⟨fs, false, none⟩) ∧
    (∀ (outName : String → String) (srtFor : String → String → String)
       (fs : List (String × String)) (pairs : List (String × String)),
      (∀ pr ∈ pairs, outName pr.1 ∈ fs.map Prod.fst) →
      align_book outName srtFor fs pairs = (fs, [])) := by
  have h1 : ∀ (fs : List (String × String)) (outFile srtOut : String),
      outFile ∈ fs.map Prod.fst →
      align_chapter fs outFile srtOut = ⟨fs, false, none⟩ := by
    intro fs outFile srtOut h
    simp [align_chapter, h]
  refine ⟨h1, ?_⟩
  intro outName srtFor fs pairs
  induction pairs with
  | nil => intro _; rfl
  | cons pr rest ih =>
    intro h
    obtain ⟨path, text⟩ := pr
    have hskip := h1 fs (outName path) (srtFor path text)
      (h (path, text) (List.mem_cons_self _ _))
    simp only [align_book, hskip]
    have := ih (fun q hq => h q (List.mem_cons_of_mem _ hq))
    simp [this]

/-- Witness for C8: one existing subtitle file is skipped, and a re-run
of the book loop over a fully present output set is a no-op. -/
theorem C8_skip_existing_witness :
    align_chapter [("a.srt", "old")] "a.srt" "new" =
      ⟨[("a.srt", "old")], false, none⟩ ∧
    align_book (fun s => s ++ ".srt") (fun _ _ => "data")
      [("b.srt", "x")] [("b", "t")] = ([("b.srt", "x")], []) := by
  refine ⟨C8_skip_existing.1 _ _ _ (by decide), C8_skip_existing.2 _ _ _ _ ?_⟩
  intro pr hpr
  have : pr = ("b", "t") := by simpa using hpr
  rw [this]
  decide

/-! ### The table-of-contents confirmation prompt -/

/-- C9: the mapping proposed by `read_ebook_toc` is rejected (result
`none`) exactly when the operator's answer lowercases to the explicit
negative `"n"` (the `[Y/n]` prompt's negative form, `answer.lower() ==
"n"` in the source); on every other answer the function returns the
(path, chapter text) mapping, which thereby becomes authoritative. -/
theorem C9_toc_confirmation (rows : List TocMatch)
    (chapterTextOf : String → List Char) (answer : String) :
    (read_ebook_toc rows chapterTextOf answer = none ↔
      answer.toList.map pyLower = ['n']) ∧
    (answer.toList.map pyLower ≠ ['n'] →
      read_ebook_toc rows chapterTextOf answer =
        some (rows.map (fun m => (m.path, chapterTextOf m.link)))) := by
  unfold read_ebook_toc
  by_cases h : answer.toList.map pyLower = ['n'] <;> simp [h]

/-- Witness for C9: `"N"` rejects the mapping; `"no"` (not the explicit
negative) confirms it. -/
theorem C9_toc_confirmation_witness :
    read_ebook_toc [] (fun _ => []) "N" = none ∧
    read_ebook_toc [] (fun _ => []) "no" = some [] := by
  refine ⟨(C9_toc_confirmation [] _ "N").1.mpr (by decide), ?_⟩
  have h := (C9_toc_confirmation [] (fun _ => []) "no").2 (by decide)
  simpa using h

/-! ### Lemmas about the delineator scanner -/

theorem scanF_nil (f i : Nat) : scanF f [] i = [] := by
  cases f <;> simp [scanF]

theorem scanF_congr : ∀ (f1 : Nat) (l : List Char) (i f2 : Nat),
    l.length ≤ f1 → l.length ≤ f2 → scanF f1 l i = scanF f2 l i := by
  intro f1
  induction f1 with
  | zero =>
    intro l i f2 h1 _
    have hl : l = [] := List.eq_nil_of_length_eq_zero (Nat.le_zero.mp h1)
    subst hl
    rw [scanF_nil, scanF_nil]
  | succ f ih =>
    intro l i f2 h1 h2
    cases l with
    | nil => rw [scanF_nil, scanF_nil]
    | cons c cs =>
      cases f2 with
      | zero => simp at h2
      | succ g =>
        have hlen : cs.length ≤ f := by simpa using h1
        have hlen2 : cs.length ≤ g := by simpa using h2
        have htail : cs.tail.length ≤ cs.length := by
          simp [List.length_tail]
        simp only [scanF]
        by_cases hp : isPunct1 c
        · by_cases hh : cs.head? = some '」'
          · simp only [hp, hh, if_true]
            rw [ih cs.tail (i + 2) g (le_trans htail hlen) (le_trans htail hlen2)]
          · simp only [hp, hh, if_true, if_false]
            rw [ih cs (i + 1) g hlen hlen2]
        · by_cases hd : isDash c
          · have hdrop : (cs.drop (runLen isDash cs)).length ≤ cs.length := by
              simp [List.length_drop]
            simp [hp, hd, ih _ _ g (le_trans hdrop hlen) (le_trans hdrop hlen2)]
          · by_cases hn : isNl c
            · have hdrop : (cs.drop (runLen isNl cs)).length ≤ cs.length := by
                simp [List.length_drop]
              simp [hp, hd, hn,
                ih _ _ g (le_trans hdrop hlen) (le_trans hdrop hlen2)]
            · simp [hp, hd, hn, ih cs (i + 1) g hlen hlen2]

theorem scanFrom_fuel (f : Nat) (l : List Char) (i : Nat) (h : l.length ≤ f) :
    scanFrom l i = scanF f l i :=
  scanF_congr l.length l i f (Nat.le_refl _) h

theorem scanFrom_nil (i : Nat) : scanFrom [] i = [] := rfl

theorem scanFrom_punct_close (c : Char) (cs : List Char) (i : Nat)
    (hp : isPunct1 c = true) (hh : cs.head? = some '」') :
    scanFrom (c :: cs) i = (i + 2) :: scanFrom cs.tail (i + 2) := by
  have htail : cs.tail.length ≤ cs.length := by simp [List.length_tail]
  unfold scanFrom
  simp only [List.length_cons, scanF, hp, hh, if_true]
  rw [scanF_congr cs.length cs.tail (i + 2) cs.tail.length htail (Nat.le_refl _)]

theorem scanFrom_punct_far (c : Char) (cs : List Char) (i : Nat)
    (hp : isPunct1 c = true) (hh : ¬cs.head? = some '」') :
    scanFrom (c :: cs) i = (i + 1) :: scanFrom cs (i + 1) := by
  unfold scanFrom
  simp only [List.length_cons, scanF, hp, hh, if_true, if_false]

theorem scanFrom_dash (c : Char) (cs : List Char) (i : Nat)
    (hp : isPunct1 c = false) (hd : isDash c = true) :
    scanFrom (c :: cs) i = (i + 1 + runLen isDash cs) ::
      scanFrom (cs.drop (runLen isDash cs)) (i + 1 + runLen isDash cs) := by
  have hdrop : (cs.drop (runLen isDash cs)).length ≤ cs.length := by
    simp [List.length_drop]
  unfold scanFrom
  simp only [List.length_cons, scanF, hp, hd, if_true, if_false, Bool.false_eq_true]
  rw [scanF_congr cs.length _ _ _ hdrop (Nat.le_refl _)]

theorem scanFrom_newline (c : Char) (cs : List Char) (i : Nat)
    (hp : isPunct1 c = false) (hd : isDash c = false) (hn : isNl c = true) :
    scanFrom (c :: cs) i = (i + 1 + runLen isNl cs) ::
      scanFrom (cs.drop (runLen isNl cs)) (i + 1 + runLen isNl cs) := by
  have hdrop : (cs.drop (runLen isNl cs)).length ≤ cs.length := by
    simp [List.length_drop]
  unfold scanFrom
  simp only [List.length_cons, scanF, hp, hd, hn, if_true, if_false, Bool.false_eq_true]
  rw [scanF_congr cs.length _ _ _ hdrop (Nat.le_refl _)]

theorem scanFrom_skip (c : Char) (cs : List Char) (i : Nat)
    (hp : isPunct1 c = false) (hd : isDash c = false) (hn : isNl c = false) :
    scanFrom (c :: cs) i = scanFrom cs (i + 1) := by
  unfold scanFrom
  simp only [List.length_cons, scanF, hp, hd, hn, if_false, Bool.false_eq_true]

theorem scanF_shift : ∀ (f : Nat) (l : List Char) (i : Nat),
    scanF f l (i + 1) = (scanF f l i).map (· + 1) := by
  intro f
  induction f with
  | zero => intro l i; simp [scanF]
  | succ f ih =>
    intro l i
    cases l with
    | nil => simp [scanF_nil]
    | cons c cs =>
      simp only [scanF]
      by_cases hp : isPunct1 c
      · by_cases hh : cs.head? = some '」'
        · have harith : i + 1 + 2 = i + 2 + 1 := by omega
          simp [hp, hh, harith, ih cs.tail (i + 2)]
        · simp [hp, hh, ih cs (i + 1)]
      · by_cases hd : isDash c
        · have harith : i + 1 + 1 + runLen isDash cs =
              i + 1 + runLen isDash cs + 1 := by omega
          simp [hp, hd, harith, ih (cs.drop (runLen isDash cs)) (i + 1 + runLen isDash cs)]
        · by_cases hn : isNl c
          · have harith : i + 1 + 1 + runLen isNl cs =
                i + 1 + runLen isNl cs + 1 := by omega
            simp [hp, hd, hn, harith,
              ih (cs.drop (runLen isNl cs)) (i + 1 + runLen isNl cs)]
          · simp [hp, hd, hn, ih cs (i + 1)]

theorem scanFrom_shift (l : List Char) (i : Nat) :
    scanFrom l (i + 1) = (scanFrom l i).map (· + 1) := scanF_shift l.length l i

theorem scanF_lb : ∀ (f : Nat) (l : List Char) (i e : Nat),
    e ∈ scanF f l i → i < e ∧ e ≤ i + l.length := by
  intro f
  induction f with
  | zero => intro l i e he; simp [scanF] at he
  | succ f ih =>
    intro l i e he
    cases l with
    | nil => rw [scanF_nil] at he; simp at he
    | cons c cs =>
      have hr1 : runLen isDash cs ≤ cs.length := by
        clear he ih
        induction cs with
        | nil => simp [runLen]
        | cons d ds ihd => by_cases h : isDash d <;> simp [runLen, h] <;> omega
      have hr2 : runLen isNl cs ≤ cs.length := by
        clear he ih hr1
        induction cs with
        | nil => simp [runLen]
        | cons d ds ihd => by_cases h : isNl d <;> simp [runLen, h] <;> omega
      simp only [scanF] at he
      by_cases hp : isPunct1 c
      · by_cases hh : cs.head? = some '」'
        · rw [if_pos hp, if_pos hh] at he
          have hcs : 1 ≤ cs.length := by
            cases cs with
            | nil => simp at hh
            | cons d ds => simp
          rcases List.mem_cons.mp he with rfl | hmem
          · simp <;> omega
          · have := ih cs.tail (i + 2) e hmem
            have ht : cs.tail.length = cs.length - 1 := by simp [List.length_tail]
            simp <;> omega
        · rw [if_pos hp, if_neg hh] at he
          rcases List.mem_cons.mp he with rfl | hmem
          · simp <;> omega
          · have := ih cs (i + 1) e hmem
            simp <;> omega
      · by_cases hd : isDash c
        · rw [if_neg hp, if_pos hd] at he
          rcases List.mem_cons.mp he with rfl | hmem
          · simp <;> omega
          · have := ih (cs.drop (runLen isDash cs)) (i + 1 + runLen isDash cs) e hmem
            have hdl : (cs.drop (runLen isDash cs)).length =
                cs.length - runLen isDash cs := by simp [List.length_drop]
            simp <;> omega
        · by_cases hn : isNl c
          · rw [if_neg hp, if_neg hd, if_pos hn] at he
            rcases List.mem_cons.mp he with rfl | hmem
            · simp <;> omega
            · have := ih (cs.drop (runLen isNl cs)) (i + 1 + runLen isNl cs) e hmem
              have hdl : (cs.drop (runLen isNl cs)).length =
                  cs.length - runLen isNl cs := by simp [List.length_drop]
              simp <;> omega
          · rw [if_neg hp, if_neg hd, if_neg hn] at he
            have := ih cs (i + 1) e he
            simp <;> omega

theorem scanFrom_lb (l : List Char) (i e : Nat) (he : e ∈ scanFrom l i) :
    i < e ∧ e ≤ i + l.length := scanF_lb l.length l i e he

theorem lineEnds_lb (l : List Char) (e : Nat) (he : e ∈ lineEnds l) :
    0 < e ∧ e ≤ l.length := by
  have := scanFrom_lb l 0 e he
  omega

theorem scanF_sorted : ∀ (f : Nat) (l : List Char) (i : Nat),
    (scanF f l i).Pairwise (· < ·) := by
  intro f
  induction f with
  | zero => intro l i; simp [scanF]
  | succ f ih =>
    intro l i
    cases l with
    | nil => rw [scanF_nil]; exact List.Pairwise.nil
    | cons c cs =>
      simp only [scanF]
      by_cases hp : isPunct1 c
      · by_cases hh : cs.head? = some '」'
        · rw [if_pos hp, if_pos hh]
          exact List.pairwise_cons.mpr
            ⟨fun e he => (scanF_lb f cs.tail (i + 2) e he).1, ih cs.tail (i + 2)⟩
        · rw [if_pos hp, if_neg hh]
          exact List.pairwise_cons.mpr
            ⟨fun e he => (scanF_lb f cs (i + 1) e he).1, ih cs (i + 1)⟩
      · by_cases hd : isDash c
        · rw [if_neg hp, if_pos hd]
          exact List.pairwise_cons.mpr
            ⟨fun e he => (scanF_lb f _ _ e he).1, ih _ _⟩
        · by_cases hn : isNl c
          · rw [if_neg hp, if_neg hd, if_pos hn]
            exact List.pairwise_cons.mpr
              ⟨fun e he => (scanF_lb f _ _ e he).1, ih _ _⟩
          · rw [if_neg hp, if_neg hd, if_neg hn]
            exact ih cs (i + 1)

theorem lineEnds_sorted (l : List Char) : (lineEnds l).Pairwise (· < ·) :=
  scanF_sorted l.length l 0

theorem scanF_empty_all : ∀ (f : Nat) (l : List Char) (i : Nat),
    l.length ≤ f → scanF f l i = [] →
    ∀ c ∈ l, isPunct1 c = false ∧ isDash c = false ∧ isNl c = false := by
  intro f
  induction f with
  | zero =>
    intro l i h1 _ c hc
    have : l = [] := List.eq_nil_of_length_eq_zero (Nat.le_zero.mp h1)
    subst this
    simp at hc
  | succ f ih =>
    intro l i h1 hemp c hc
    cases l with
    | nil => simp at hc
    | cons d ds =>
      simp only [scanF] at hemp
      by_cases hp : isPunct1 d
      · by_cases hh : ds.head? = some '」' <;> simp [hp, hh] at hemp
      · by_cases hd : isDash d
        · simp [hp, hd] at hemp
        · by_cases hn : isNl d
          · simp [hp, hd, hn] at hemp
          · rw [if_neg hp, if_neg hd, if_neg hn] at hemp
            rcases List.mem_cons.mp hc with rfl | hmem
            · exact ⟨Bool.eq_false_iff.mpr hp, Bool.eq_false_iff.mpr hd,
                Bool.eq_false_iff.mpr hn⟩
            · exact ih ds (i + 1) (by simpa using Nat.le_of_succ_le_succ (by simpa using h1)) hemp c hmem

theorem lineEnds_empty_all (l : List Char) (h : lineEnds l = [])
    (c : Char) (hc : c ∈ l) :
    isPunct1 c = false ∧ isDash c = false ∧ isNl c = false :=
  scanF_empty_all l.length l 0 (Nat.le_refl _) h c hc

theorem lineEnds_empty_no_newline (l : List Char) (h : lineEnds l = []) :
    '\n' ∉ l := by
  intro hmem
  have := (lineEnds_empty_all l h '\n' hmem).2.2
  simp [isNl] at this

/-! ### Lemmas about runs and the split-position choice -/

theorem runLen_le_length (p : Char → Bool) :
    ∀ l : List Char, runLen p l ≤ l.length := by
  intro l
  induction l with
  | nil => simp [runLen]
  | cons c cs ih => by_cases h : p c <;> simp [runLen, h] <;> omega

theorem runLen_take (p : Char → Bool) :
    ∀ l : List Char, ∀ c ∈ l.take (runLen p l), p c = true := by
  intro l
  induction l with
  | nil => simp [runLen]
  | cons c cs ih =>
    intro d hd
    by_cases h : p c
    · rw [runLen, if_pos h, List.take_succ_cons] at hd
      rcases List.mem_cons.mp hd with rfl | hmem
      · exact h
      · exact ih d hmem
    · rw [runLen, if_neg h, List.take_zero] at hd
      simp at hd

theorem runLen_drop_head (p : Char → Bool) :
    ∀ (l : List Char) (x : Char) (t : List Char),
      l.drop (runLen p l) = x :: t → p x = false := by
  intro l
  induction l with
  | nil => intro x t h; simp [runLen] at h
  | cons c cs ih =>
    intro x t h
    by_cases hc : p c
    · rw [runLen, if_pos hc, List.drop_succ_cons] at h
      exact ih x t h
    · rw [runLen, if_neg hc, List.drop_zero] at h
      obtain ⟨rfl, -⟩ : c = x ∧ cs = t := by
        constructor <;> injection h <;> assumption
      exact Bool.eq_false_iff.mpr hc

theorem runLen_of_all (p : Char → Bool) :
    ∀ l : List Char, (∀ c ∈ l, p c = true) → runLen p l = l.length := by
  intro l
  induction l with
  | nil => simp [runLen]
  | cons c cs ih =>
    intro h
    rw [runLen, if_pos (h c (List.mem_cons_self c cs)), List.length_cons,
      ih (fun d hd => h d (List.mem_cons_of_mem c hd))]

theorem runLen_all_concat (p : Char → Bool) :
    ∀ (l : List Char) (x : Char), (∀ c ∈ l, p c = true) → p x = false →
      runLen p (l ++ [x]) = l.length := by
  intro l
  induction l with
  | nil => intro x _ hx; simp [runLen, hx]
  | cons c cs ih =>
    intro x h hx
    rw [List.cons_append, runLen, if_pos (h c (List.mem_cons_self c cs)),
      ih x (fun d hd => h d (List.mem_cons_of_mem c hd)) hx, List.length_cons]

theorem pickSplit_cons_isSome (n : Nat) (e : Nat) (es : List Nat) :
    (pickSplit n (e :: es)).isSome := by
  rw [pickSplit]
  cases pickSplit n es with
  | none => rfl
  | some b => by_cases hk : key n e ≤ key n b <;> simp [hk]

theorem pickSplit_mem (n : Nat) :
    ∀ (l : List Nat) (s : Nat), pickSplit n l = some s → s ∈ l := by
  intro l
  induction l with
  | nil => intro s h; simp [pickSplit] at h
  | cons e es ih =>
    intro s h
    cases hp : pickSplit n es with
    | none =>
      simp only [pickSplit, hp] at h
      injection h with h
      exact h ▸ List.mem_cons_self _ _
    | some b =>
      simp only [pickSplit, hp] at h
      by_cases hk : key n e ≤ key n b
      · rw [if_pos hk] at h
        injection h with h
        exact h ▸ List.mem_cons_self _ _
      · rw [if_neg hk] at h
        injection h with h
        exact List.mem_cons_of_mem _ (h ▸ ih b hp)

theorem pickSplit_min (n : Nat) :
    ∀ (l : List Nat) (s : Nat), pickSplit n l = some s →
      ∀ e ∈ l, key n s ≤ key n e := by
  intro l
  induction l with
  | nil => intro s h; simp [pickSplit] at h
  | cons e es ih =>
    intro s h e' he'
    cases hp : pickSplit n es with
    | none =>
      have hes : es = [] := by
        cases es with
        | nil => rfl
        | cons a as =>
          have := pickSplit_cons_isSome n a as
          rw [hp] at this
          simp at this
      simp only [pickSplit, hp] at h
      injection h with h
      subst h
      subst hes
      rcases List.mem_cons.mp he' with rfl | hmem
      · exact Nat.le_refl _
      · simp at hmem
    | some b =>
      simp only [pickSplit, hp] at h
      have hb := ih b hp
      by_cases hk : key n e ≤ key n b
      · rw [if_pos hk] at h
        injection h with h
        subst h
        rcases List.mem_cons.mp he' with rfl | hmem
        · exact Nat.le_refl _
        · exact Nat.le_trans hk (hb e' hmem)
      · rw [if_neg hk] at h
        injection h with h
        subst h
        rcases List.mem_cons.mp he' with rfl | hmem
        · omega
        · exact hb e' hmem

theorem pickSplit_earliest (n : Nat) :
    ∀ (l : List Nat) (s : Nat), l.Pairwise (· < ·) → pickSplit n l = some s →
      ∀ e ∈ l, e < s → key n s < key n e := by
  intro l
  induction l with
  | nil => intro s _ h; simp [pickSplit] at h
  | cons a as ih =>
    intro s hsort h e he hlt
    obtain ⟨ha, hs⟩ := List.pairwise_cons.mp hsort
    cases hp : pickSplit n as with
    | none =>
      simp only [pickSplit, hp] at h
      injection h with h
      subst h
      rcases List.mem_cons.mp he with rfl | hmem
      · omega
      · have := ha e hmem
        omega
    | some b =>
      simp only [pickSplit, hp] at h
      by_cases hk : key n a ≤ key n b
      · rw [if_pos hk] at h
        injection h with h
        subst h
        rcases List.mem_cons.mp he with rfl | hmem
        · omega
        · have := ha e hmem
          omega
      · rw [if_neg hk] at h
        injection h with h
        subst h
        rcases List.mem_cons.mp he with rfl | hmem
        · omega
        · exact ih _ hs hp e hmem hlt

/-! ### Unfolding equation for `split_line` -/

theorem splitLineF_congr : ∀ (f1 : Nat) (l : List Char) (f2 : Nat),
    l.length ≤ f1 → l.length ≤ f2 → splitLineF f1 l = splitLineF f2 l := by
  intro f1
  induction f1 with
  | zero =>
    intro l f2 h1 _
    have hl : l = [] := List.eq_nil_of_length_eq_zero (Nat.le_zero.mp h1)
    subst hl
    cases f2 with
    | zero => rfl
    | succ g => simp [splitLineF, MAX_LINE_LENGTH]
  | succ f ih =>
    intro l f2 h1 h2
    cases f2 with
    | zero =>
      have hl : l = [] := List.eq_nil_of_length_eq_zero (Nat.le_zero.mp h2)
      subst hl
      simp [splitLineF, MAX_LINE_LENGTH]
    | succ g =>
      simp only [splitLineF]
      by_cases hlen : l.length ≤ MAX_LINE_LENGTH
      · simp [hlen]
      · simp only [if_neg hlen]
        cases hp : pickSplit l.length (lineEnds l) with
        | none => rfl
        | some s =>
          by_cases hs : l.length - 1 ≤ s
          · simp [hs]
          · simp only [if_neg hs]
            have hmem := pickSplit_mem l.length (lineEnds l) s hp
            have hlb := lineEnds_lb l s hmem
            have hmax : MAX_LINE_LENGTH < l.length := Nat.lt_of_not_le hlen
            have htk : (l.take s).length = s := by
              rw [List.length_take]
              omega
            have hdr : (l.drop s).length = l.length - s := List.length_drop s l
            rw [ih (l.take s) g (by omega) (by omega),
              ih (l.drop s) g (by omega) (by omega)]

theorem splitLineF_spec (f : Nat) (l : List Char) (h : l.length ≤ f) :
    splitLineF f l = split_line l :=
  splitLineF_congr f l l.length h (Nat.le_refl _)

theorem split_line_eq (l : List Char) : split_line l =
    if l.length ≤ MAX_LINE_LENGTH then l
    else
      match pickSplit l.length (lineEnds l) with
      | none => l
      | some s =>
        if l.length - 1 ≤ s then l
        else split_line (l.take s) ++ '\n' :: split_line (l.drop s) := by
  by_cases hnil : l = []
  · subst hnil
    simp [split_line, splitLineF, MAX_LINE_LENGTH]
  · have hpos : 0 < l.length := List.length_pos.mpr hnil
    obtain ⟨m, hl0⟩ : ∃ m, l.length = m + 1 := ⟨l.length - 1, by omega⟩
    have h1 : l.length ≤ m + 1 := Nat.le_of_eq hl0
    rw [show split_line l = splitLineF (m + 1) l from (splitLineF_spec (m + 1) l h1).symm]
    simp only [splitLineF]
    by_cases hlen : l.length ≤ MAX_LINE_LENGTH
    · simp [hlen]
    · simp only [if_neg hlen]
      cases hp : pickSplit l.length (lineEnds l) with
      | none => rfl
      | some s =>
        by_cases hs : l.length - 1 ≤ s
        · simp [hs]
        · simp only [if_neg hs]
          have hmem := pickSplit_mem l.length (lineEnds l) s hp
          have hlb := lineEnds_lb l s hmem
          have hmax : MAX_LINE_LENGTH < l.length := Nat.lt_of_not_le hlen
          have htk : (l.take s).length = s := by
            rw [List.length_take]
            omega
          have hdr : (l.drop s).length = l.length - s := List.length_drop s l
          rw [splitLineF_spec m (l.take s) (by omega),
            splitLineF_spec m (l.drop s) (by omega)]

theorem split_line_short (l : List Char) (h : l.length ≤ MAX_LINE_LENGTH) :
    split_line l = l := by
  rw [split_line_eq, if_pos h]

theorem split_line_no_delineator (l : List Char) (h : lineEnds l = []) :
    split_line l = l := by
  rw [split_line_eq]
  by_cases hlen : l.length ≤ MAX_LINE_LENGTH
  · rw [if_pos hlen]
  · rw [if_neg hlen, h]
    rfl

theorem split_line_late (l : List Char) (s : Nat)
    (hp : pickSplit l.length (lineEnds l) = some s) (hs : l.length - 1 ≤ s) :
    split_line l = l := by
  rw [split_line_eq]
  by_cases hlen : l.length ≤ MAX_LINE_LENGTH
  · rw [if_pos hlen]
  · rw [if_neg hlen, hp]
    simp [hs]

/-! ### Character-class facts and lemmas about `pieces` -/

theorem ne_newline_of_isPunct1 (c : Char) (h : isPunct1 c = true) : c ≠ '\n' := by
  intro hc
  subst hc
  exact absurd h (by decide)

theorem ne_newline_of_isDash (c : Char) (h : isDash c = true) : c ≠ '\n' := by
  intro hc
  subst hc
  exact absurd h (by decide)

theorem isNl_cases (c : Char) (h : isNl c = true) : c = '\r' ∨ c = '\n' := by
  simpa [isNl] using h

theorem not_isNl_ne (c : Char) (h : isNl c = false) : c ≠ '\r' ∧ c ≠ '\n' := by
  simpa [isNl] using h

theorem pieces_ne_nil : ∀ l : List Char, pieces l ≠ [] := by
  intro l
  cases l with
  | nil => simp [pieces]
  | cons c cs =>
    by_cases h : c = '\n'
    · simp [pieces, h]
    · simp only [pieces, if_neg h]
      cases pieces cs with
      | nil => simp
      | cons p ps => simp

theorem pieces_append_newline : ∀ u v : List Char,
    pieces (u ++ '\n' :: v) = pieces u ++ pieces v := by
  intro u v
  induction u with
  | nil => simp [pieces]
  | cons c cs ih =>
    by_cases h : c = '\n'
    · subst h
      show pieces ('\n' :: (cs ++ '\n' :: v)) = pieces ('\n' :: cs) ++ pieces v
      rw [pieces, if_pos rfl, pieces, if_pos rfl, ih, List.cons_append]
    · show pieces (c :: (cs ++ '\n' :: v)) = pieces (c :: cs) ++ pieces v
      rw [pieces, if_neg h, pieces, if_neg h, ih]
      cases hcs : pieces cs with
      | nil => exact absurd hcs (pieces_ne_nil cs)
      | cons p ps => simp

theorem pieces_no_newline : ∀ l : List Char, '\n' ∉ l → pieces l = [l] := by
  intro l
  induction l with
  | nil => simp [pieces]
  | cons c cs ih =>
    intro h
    have hc : ¬c = '\n' := fun hc => h (hc ▸ List.mem_cons_self c cs)
    have hcs : '\n' ∉ cs := fun hm => h (List.mem_cons_of_mem c hm)
    simp only [pieces, if_neg hc, ih hcs]

theorem pieces_length_le : ∀ l : List Char, ∀ q ∈ pieces l, q.length ≤ l.length := by
  intro l
  induction l with
  | nil => intro q hq; simp [pieces] at hq; simp [hq]
  | cons c cs ih =>
    intro q hq
    by_cases h : c = '\n'
    · rw [pieces, if_pos h] at hq
      rcases List.mem_cons.mp hq with rfl | hmem
      · simp
      · have := ih q hmem
        simp
        omega
    · rw [pieces, if_neg h] at hq
      cases hcs : pieces cs with
      | nil => exact absurd hcs (pieces_ne_nil cs)
      | cons p ps =>
        rw [hcs] at hq
        rcases List.mem_cons.mp hq with rfl | hmem
        · have := ih p (hcs ▸ List.mem_cons_self p ps)
          simp
          omega
        · have := ih q (hcs ▸ List.mem_cons_of_mem p hmem)
          simp
          omega

theorem pickSplit_none_nil (n : Nat) (l : List Nat)
    (h : pickSplit n l = none) : l = [] := by
  cases l with
  | nil => rfl
  | cons e es =>
    have := pickSplit_cons_isSome n e es
    rw [h] at this
    simp at this

/-! ### Lines whose delineators all sit at the very end -/

theorem endsLate_nil : endsLate [] := by
  intro e he
  simp [lineEnds, scanFrom_nil] at he

theorem endsLate_of_short (l : List Char) (h : l.length ≤ 1) : endsLate l := by
  intro e _
  omega

theorem lineEnds_cons_skip (c : Char) (cs : List Char)
    (hp : isPunct1 c = false) (hd : isDash c = false) (hn : isNl c = false) :
    lineEnds (c :: cs) = (lineEnds cs).map (· + 1) := by
  unfold lineEnds
  rw [scanFrom_skip c cs 0 hp hd hn]
  exact scanFrom_shift cs 0

theorem endsLate_cons_skip (c : Char) (cs : List Char)
    (hp : isPunct1 c = false) (hd : isDash c = false) (hn : isNl c = false)
    (h : endsLate cs) : endsLate (c :: cs) := by
  intro e he
  rw [lineEnds_cons_skip c cs hp hd hn] at he
  obtain ⟨e0, he0, rfl⟩ := List.mem_map.mp he
  have := h e0 he0
  simp
  omega

theorem endsLate_rep_cr (m : Nat) : endsLate (List.replicate m '\r') := by
  cases m with
  | zero => exact endsLate_nil
  | succ k =>
    intro e he
    have hrep : List.replicate (k + 1) '\r' = '\r' :: List.replicate k '\r' :=
      List.replicate_succ '\r' k
    rw [show lineEnds (List.replicate (k + 1) '\r') =
        scanFrom ('\r' :: List.replicate k '\r') 0 by rw [← hrep]; rfl] at he
    rw [scanFrom_newline '\r' (List.replicate k '\r') 0 (by decide) (by decide)
      (by decide)] at he
    rw [runLen_of_all isNl (List.replicate k '\r')
      (fun c hc => by rw [List.eq_of_mem_replicate hc]; decide)] at he
    rw [List.length_replicate] at he
    rw [List.drop_replicate] at he
    simp only [Nat.sub_self, List.replicate_zero, scanFrom_nil] at he
    have he' : e = 0 + 1 + k := by
      rcases List.mem_cons.mp he with h | h
      · exact h
      · simp at h
    rw [List.length_replicate]
    omega

theorem endsLate_rep_cr_concat (m : Nat) (x : Char) (hx : isNl x = false) :
    endsLate (List.replicate m '\r' ++ [x]) := by
  cases m with
  | zero => exact endsLate_of_short [x] (by simp)
  | succ k =>
    intro e he
    have hrep : List.replicate (k + 1) '\r' ++ [x] =
        '\r' :: (List.replicate k '\r' ++ [x]) := by
      rw [List.replicate_succ, List.cons_append]
    rw [show lineEnds (List.replicate (k + 1) '\r' ++ [x]) =
        scanFrom ('\r' :: (List.replicate k '\r' ++ [x])) 0 by rw [← hrep]; rfl] at he
    rw [scanFrom_newline '\r' (List.replicate k '\r' ++ [x]) 0 (by decide)
      (by decide) (by decide)] at he
    rw [runLen_all_concat isNl (List.replicate k '\r') x
      (fun c hc => by rw [List.eq_of_mem_replicate hc]; decide) hx] at he
    rw [List.length_replicate] at he
    have hdrop : (List.replicate k '\r' ++ [x]).drop k = [x] := by
      have h0 := List.drop_left (List.replicate k '\r') [x]
      rwa [List.length_replicate] at h0
    rw [hdrop] at he
    have hlen : (List.replicate (k + 1) '\r' ++ [x]).length = k + 2 := by simp
    rw [hlen]
    rcases List.mem_cons.mp he with rfl | hmem
    · omega
    · have := scanFrom_lb [x] (0 + 1 + k) e hmem
      omega

theorem ends_late_of_pick (l : List Char) (s : Nat)
    (hmax : MAX_LINE_LENGTH < l.length)
    (hp : pickSplit l.length (lineEnds l) = some s)
    (hs : l.length - 1 ≤ s) : endsLate l := by
  intro e he
  by_contra hcon
  push_neg at hcon
  have hlbe := lineEnds_lb l e he
  have hlbs := lineEnds_lb l s (pickSplit_mem _ _ _ hp)
  have hms := pickSplit_min l.length (lineEnds l) s hp e he
  have hmax40 : 40 < l.length := hmax
  have hlt : e < s := by
    simp only [key] at hms
    omega
  have := pickSplit_earliest l.length (lineEnds l) s (lineEnds_sorted l) hp e he hlt
  simp only [key] at this hms
  omega

theorem nl_pieces : ∀ t : List Char, (∀ a ∈ t, isNl a = true) →
    ∀ rest : List Char, (rest = [] ∨ ∃ x, rest = [x] ∧ isNl x = false) →
    (∀ q ∈ pieces (t ++ rest), endsLate q) ∧
    (∀ p ps, pieces (t ++ rest) = p :: ps →
      (∃ k, p = List.replicate k '\r') ∨
      (∃ k x, isNl x = false ∧ p = List.replicate k '\r' ++ [x])) := by
  intro t
  induction t with
  | nil =>
    intro _ rest hrest
    rcases hrest with rfl | ⟨x, rfl, hx⟩
    · refine ⟨?_, ?_⟩
      · intro q hq
        simp only [List.nil_append] at hq
        simp [pieces] at hq
        subst hq
        exact endsLate_nil
      · intro p ps hp
        simp only [List.nil_append] at hp
        rw [show pieces ([] : List Char) = [[]] from rfl] at hp
        injection hp with h1 _
        exact Or.inl ⟨0, h1.symm⟩
    · have hxn : x ≠ '\n' := (not_isNl_ne x hx).2
      have hpx : pieces [x] = [[x]] :=
        pieces_no_newline [x]
          (by simp only [List.mem_singleton]; exact fun h => hxn h.symm)
      refine ⟨?_, ?_⟩
      · intro q hq
        simp only [List.nil_append] at hq
        rw [hpx] at hq
        simp at hq
        subst hq
        exact endsLate_of_short [x] (by simp)
      · intro p ps hp
        simp only [List.nil_append] at hp
        rw [hpx] at hp
        injection hp with h1 _
        exact Or.inr ⟨0, x, hx, h1.symm⟩
  | cons a t' ih =>
    intro hall rest hrest
    have ha : isNl a = true := hall a (List.mem_cons_self a t')
    have hall' : ∀ b ∈ t', isNl b = true :=
      fun b hb => hall b (List.mem_cons_of_mem a hb)
    obtain ⟨ih1, ih2⟩ := ih hall' rest hrest
    rcases isNl_cases a ha with rfl | rfl
    · obtain ⟨p, ps, hps⟩ : ∃ p ps, pieces (t' ++ rest) = p :: ps := by
        cases h : pieces (t' ++ rest) with
        | nil => exact absurd h (pieces_ne_nil _)
        | cons p ps => exact ⟨p, ps, rfl⟩
      have hstep : pieces (('\r' :: t') ++ rest) = ('\r' :: p) :: ps := by
        show pieces ('\r' :: (t' ++ rest)) = ('\r' :: p) :: ps
        rw [pieces, if_neg (by decide), hps]
      have hshape := ih2 p ps hps
      have hcons : (∃ k, '\r' :: p = List.replicate k '\r') ∨
          (∃ k x, isNl x = false ∧ '\r' :: p = List.replicate k '\r' ++ [x]) := by
        rcases hshape with ⟨k, rfl⟩ | ⟨k, x, hx, rfl⟩
        · exact Or.inl ⟨k + 1, by rw [List.replicate_succ]⟩
        · exact Or.inr ⟨k + 1, x, hx, by rw [List.replicate_succ, List.cons_append]⟩
      refine ⟨?_, ?_⟩
      · intro q hq
        rw [hstep] at hq
        rcases List.mem_cons.mp hq with rfl | hmem
        · rcases hcons with ⟨k, hk⟩ | ⟨k, x, hx, hk⟩
          · rw [hk]
            exact endsLate_rep_cr k
          · rw [hk]
            exact endsLate_rep_cr_concat k x hx
        · exact ih1 q (hps ▸ List.mem_cons_of_mem p hmem)
      · intro p2 ps2 h2
        rw [hstep] at h2
        injection h2 with h1 _
        exact h1 ▸ hcons
    · have hstep : pieces (('\n' :: t') ++ rest) = [] :: pieces (t' ++ rest) := by
        show pieces ('\n' :: (t' ++ rest)) = [] :: pieces (t' ++ rest)
        rw [pieces, if_pos rfl]
      refine ⟨?_, ?_⟩
      · intro q hq
        rw [hstep] at hq
        rcases List.mem_cons.mp hq with rfl | hmem
        · exact endsLate_nil
        · exact ih1 q hmem
      · intro p2 ps2 h2
        rw [hstep] at h2
        injection h2 with h1 _
        exact Or.inl ⟨0, h1.symm⟩

theorem endsLate_pieces : ∀ (n : Nat) (l : List Char), l.length ≤ n →
    endsLate l → ∀ q ∈ pieces l, endsLate q := by
  intro n
  induction n with
  | zero =>
    intro l hl _ q hq
    have hnil : l = [] := List.eq_nil_of_length_eq_zero (Nat.le_zero.mp hl)
    subst hnil
    simp [pieces] at hq
    subst hq
    exact endsLate_nil
  | succ n ih =>
    intro l hl hLate q hq
    cases l with
    | nil =>
      simp [pieces] at hq
      subst hq
      exact endsLate_nil
    | cons c cs =>
      by_cases hp : isPunct1 c
      · have hcn : c ≠ '\n' := ne_newline_of_isPunct1 c hp
        by_cases hh : cs.head? = some '」'
        · obtain ⟨cs', rfl⟩ : ∃ cs', cs = '」' :: cs' := by
            cases cs with
            | nil => simp at hh
            | cons d ds =>
              simp at hh
              exact ⟨ds, by rw [hh]⟩
          have hends : lineEnds (c :: '」' :: cs') =
              (0 + 2) :: scanFrom ('」' :: cs').tail (0 + 2) :=
            scanFrom_punct_close c ('」' :: cs') 0 hp (by simp)
          have hlen1 : cs'.length ≤ 1 := by
            have hb := hLate (0 + 2) (by
              rw [show lineEnds (c :: '」' :: cs') = _ from hends]
              exact List.mem_cons_self _ _)
            simp only [List.length_cons] at hb
            omega
          cases cs' with
          | nil =>
            have hnonl : '\n' ∉ [c, '」'] := by
              intro hm
              rcases List.mem_cons.mp hm with h | h
              · exact hcn h.symm
              · simp at h
            rw [pieces_no_newline _ hnonl] at hq
            simp at hq
            subst hq
            exact hLate
          | cons x rest2 =>
            have hrest2 : rest2 = [] := by
              simp only [List.length_cons] at hlen1
              exact List.eq_nil_of_length_eq_zero (by omega)
            subst hrest2
            by_cases hxn : x = '\n'
            · subst hxn
              have hl2 : c :: '」' :: ['\n'] = [c, '」'] ++ '\n' :: [] := rfl
              rw [hl2, pieces_append_newline] at hq
              rcases List.mem_append.mp hq with hq1 | hq2
              · have hnonl : '\n' ∉ [c, '」'] := by
                  intro hm
                  rcases List.mem_cons.mp hm with h | h
                  · exact hcn h.symm
                  · simp at h
                rw [pieces_no_newline _ hnonl] at hq1
                simp at hq1
                subst hq1
                intro e he
                rw [show lineEnds [c, '」'] =
                    (0 + 2) :: scanFrom (['」'] : List Char).tail (0 + 2) from
                  scanFrom_punct_close c ['」'] 0 hp (by simp)] at he
                simp only [List.tail_cons, scanFrom_nil] at he
                simp at he ⊢
                omega
              · rw [show pieces ([] : List Char) = [[]] from rfl] at hq2
                simp at hq2
                subst hq2
                exact endsLate_nil
            · have hnonl : '\n' ∉ [c, '」', x] := by
                intro hm
                rcases List.mem_cons.mp hm with h | h
                · exact hcn h.symm
                · rcases List.mem_cons.mp h with h2 | h2
                  · simp at h2
                  · simp at h2
                    exact hxn h2.symm
              rw [pieces_no_newline _ hnonl] at hq
              simp at hq
              subst hq
              exact hLate
        · have hends : lineEnds (c :: cs) = (0 + 1) :: scanFrom cs (0 + 1) :=
            scanFrom_punct_far c cs 0 hp hh
          have hlen1 : cs.length ≤ 1 := by
            have hb := hLate (0 + 1) (by
              rw [show lineEnds (c :: cs) = _ from hends]
              exact List.mem_cons_self _ _)
            simp only [List.length_cons] at hb
            omega
          cases cs with
          | nil =>
            have hnonl : '\n' ∉ [c] := by
              intro hm
              simp at hm
              exact hcn hm.symm
            rw [pieces_no_newline _ hnonl] at hq
            simp at hq
            subst hq
            exact hLate
          | cons d rest2 =>
            have hrest2 : rest2 = [] := by
              simp only [List.length_cons] at hlen1
              exact List.eq_nil_of_length_eq_zero (by omega)
            subst hrest2
            by_cases hdn : d = '\n'
            · subst hdn
              have hl2 : c :: ['\n'] = [c] ++ '\n' :: [] := rfl
              rw [hl2, pieces_append_newline] at hq
              rcases List.mem_append.mp hq with hq1 | hq2
              · have hnonl : '\n' ∉ [c] := by
                  intro hm
                  simp at hm
                  exact hcn hm.symm
                rw [pieces_no_newline _ hnonl] at hq1
                simp at hq1
                subst hq1
                exact endsLate_of_short [c] (by simp)
              · rw [show pieces ([] : List Char) = [[]] from rfl] at hq2
                simp at hq2
                subst hq2
                exact endsLate_nil
            · have hnonl : '\n' ∉ [c, d] := by
                intro hm
                rcases List.mem_cons.mp hm with h | h
                · exact hcn h.symm
                · simp at h
                  exact hdn h.symm
              rw [pieces_no_newline _ hnonl] at hq
              simp at hq
              subst hq
              exact hLate
      · have hpf : isPunct1 c = false := Bool.eq_false_iff.mpr hp
        by_cases hd : isDash c
        · have hcn : c ≠ '\n' := ne_newline_of_isDash c hd
          have hends : lineEnds (c :: cs) =
              (0 + 1 + runLen isDash cs) ::
                scanFrom (cs.drop (runLen isDash cs)) (0 + 1 + runLen isDash cs) :=
            scanFrom_dash c cs 0 hpf hd
          have hrle : runLen isDash cs ≤ cs.length := runLen_le_length isDash cs
          have hrest1 : cs.length - runLen isDash cs ≤ 1 := by
            have hb := hLate (0 + 1 + runLen isDash cs) (by
              rw [show lineEnds (c :: cs) = _ from hends]
              exact List.mem_cons_self _ _)
            simp only [List.length_cons] at hb
            omega
          cases hdr : cs.drop (runLen isDash cs) with
          | nil =>
            have hcs_take : cs.take (runLen isDash cs) = cs := by
              have := List.take_append_drop (runLen isDash cs) cs
              rw [hdr, List.append_nil] at this
              exact this
            have hall : ∀ d2 ∈ cs, isDash d2 = true := by
              intro d2 hd2
              exact runLen_take isDash cs d2 (by rw [hcs_take]; exact hd2)
            have hnonl : '\n' ∉ (c :: cs) := by
              intro hm
              rcases List.mem_cons.mp hm with h | h
              · exact hcn h.symm
              · exact absurd (hall '\n' h) (by decide)
            rw [pieces_no_newline _ hnonl] at hq
            simp at hq
            subst hq
            exact hLate
          | cons x rest2 =>
            have hrest2 : rest2 = [] := by
              have hlen2 : (cs.drop (runLen isDash cs)).length =
                  cs.length - runLen isDash cs := List.length_drop _ _
              rw [hdr] at hlen2
              simp only [List.length_cons] at hlen2
              cases rest2 with
              | nil => rfl
              | cons y ys => simp only [List.length_cons] at hlen2; omega
            subst hrest2
            have hxd : isDash x = false := runLen_drop_head isDash cs x [] hdr
            have hdecomp : cs = cs.take (runLen isDash cs) ++ [x] := by
              conv_lhs => rw [← List.take_append_drop (runLen isDash cs) cs]
              rw [hdr]
            by_cases hxn : x = '\n'
            · subst hxn
              have hl2 : c :: cs = (c :: cs.take (runLen isDash cs)) ++ '\n' :: [] := by
                conv_lhs => rw [hdecomp]
                simp
              rw [hl2, pieces_append_newline] at hq
              rcases List.mem_append.mp hq with hq1 | hq2
              · have htake_nonl : '\n' ∉ (c :: cs.take (runLen isDash cs)) := by
                  intro hm
                  rcases List.mem_cons.mp hm with h | h
                  · exact hcn h.symm
                  · exact absurd (runLen_take isDash cs '\n' h) (by decide)
                rw [pieces_no_newline _ htake_nonl] at hq1
                simp at hq1
                subst hq1
                intro e he
                rw [show lineEnds (c :: cs.take (runLen isDash cs)) = _ from
                  scanFrom_dash c (cs.take (runLen isDash cs)) 0 hpf hd] at he
                rw [runLen_of_all isDash (cs.take (runLen isDash cs))
                  (runLen_take isDash cs)] at he
                rw [List.drop_length, scanFrom_nil] at he
                rcases List.mem_cons.mp he with rfl | habs
                · simp only [List.length_cons]
                  omega
                · simp at habs
              · rw [show pieces ([] : List Char) = [[]] from rfl] at hq2
                simp at hq2
                subst hq2
                exact endsLate_nil
            · have hnonl : '\n' ∉ (c :: cs) := by
                intro hm
                rcases List.mem_cons.mp hm with h | h
                · exact hcn h.symm
                · rw [hdecomp] at h
                  rcases List.mem_append.mp h with h2 | h2
                  · exact absurd (runLen_take isDash cs '\n' h2) (by decide)
                  · simp at h2
                    exact hxn h2.symm
              rw [pieces_no_newline _ hnonl] at hq
              simp at hq
              subst hq
              exact hLate
        · have hdf : isDash c = false := Bool.eq_false_iff.mpr hd
          by_cases hn : isNl c
          · have hends : lineEnds (c :: cs) =
                (0 + 1 + runLen isNl cs) ::
                  scanFrom (cs.drop (runLen isNl cs)) (0 + 1 + runLen isNl cs) :=
              scanFrom_newline c cs 0 hpf hdf hn
            have hrle : runLen isNl cs ≤ cs.length := runLen_le_length isNl cs
            have hrest1 : cs.length - runLen isNl cs ≤ 1 := by
              have hb := hLate (0 + 1 + runLen isNl cs) (by
                rw [show lineEnds (c :: cs) = _ from hends]
                exact List.mem_cons_self _ _)
              simp only [List.length_cons] at hb
              omega
            have hallnl : ∀ a ∈ c :: cs.take (runLen isNl cs), isNl a = true := by
              intro a hma
              rcases List.mem_cons.mp hma with rfl | hma
              · exact hn
              · exact runLen_take isNl cs a hma
            have hrest : cs.drop (runLen isNl cs) = [] ∨
                ∃ x, cs.drop (runLen isNl cs) = [x] ∧ isNl x = false := by
              cases hdr : cs.drop (runLen isNl cs) with
              | nil => exact Or.inl rfl
              | cons x rest2 =>
                have hlen2 : (cs.drop (runLen isNl cs)).length =
                    cs.length - runLen isNl cs := List.length_drop _ _
                rw [hdr] at hlen2
                simp at hlen2
                have hr2 : rest2 = [] := by
                  cases rest2 with
                  | nil => rfl
                  | cons y ys => simp at hlen2; omega
                subst hr2
                exact Or.inr ⟨x, rfl, runLen_drop_head isNl cs x [] hdr⟩
            have hdecomp : c :: cs =
                (c :: cs.take (runLen isNl cs)) ++ cs.drop (runLen isNl cs) := by
              rw [List.cons_append, List.take_append_drop]
            rw [hdecomp] at hq
            exact (nl_pieces (c :: cs.take (runLen isNl cs)) hallnl _ hrest).1 q hq
          · have hnf : isNl c = false := Bool.eq_false_iff.mpr hn
            have hcn : c ≠ '\n' := (not_isNl_ne c hnf).2
            have hLate2 : endsLate cs := by
              intro e he
              have hmem2 : e + 1 ∈ lineEnds (c :: cs) := by
                rw [lineEnds_cons_skip c cs hpf hdf hnf]
                exact List.mem_map.mpr ⟨e, he, rfl⟩
              have := hLate _ hmem2
              simp only [List.length_cons] at this
              omega
            have hcs_n : cs.length ≤ n := by
              simp only [List.length_cons] at hl
              omega
            obtain ⟨p, ps, hps⟩ : ∃ p ps, pieces cs = p :: ps := by
              cases h : pieces cs with
              | nil => exact absurd h (pieces_ne_nil _)
              | cons p ps => exact ⟨p, ps, rfl⟩
            have hstep : pieces (c :: cs) = (c :: p) :: ps := by
              rw [pieces, if_neg hcn, hps]
            rw [hstep] at hq
            rcases List.mem_cons.mp hq with rfl | hmem
            · have hpp : endsLate p :=
                ih cs hcs_n hLate2 p (hps ▸ List.mem_cons_self _ _)
              exact endsLate_cons_skip c p hpf hdf hnf hpp
            · exact ih cs hcs_n hLate2 q (hps ▸ List.mem_cons_of_mem _ hmem)

theorem split_line_rec (l : List Char) (s : Nat)
    (hlen : ¬l.length ≤ MAX_LINE_LENGTH)
    (hp : pickSplit l.length (lineEnds l) = some s)
    (hs : ¬l.length - 1 ≤ s) :
    split_line l = split_line (l.take s) ++ '\n' :: split_line (l.drop s) := by
  rw [split_line_eq, if_neg hlen, hp]
  show (if l.length - 1 ≤ s then l
    else split_line (l.take s) ++ '\n' :: split_line (l.drop s)) =
      split_line (l.take s) ++ '\n' :: split_line (l.drop s)
  rw [if_neg hs]

theorem split_line_pieces : ∀ (n : Nat) (l : List Char), l.length ≤ n →
    ∀ q ∈ pieces (split_line l),
      q.length ≤ MAX_LINE_LENGTH ∨ endsLate q := by
  intro n
  induction n with
  | zero =>
    intro l hl q hq
    have hnil : l = [] := List.eq_nil_of_length_eq_zero (Nat.le_zero.mp hl)
    subst hnil
    rw [split_line_short [] (by simp [MAX_LINE_LENGTH])] at hq
    simp [pieces] at hq
    subst hq
    exact Or.inl (by simp [MAX_LINE_LENGTH])
  | succ n ih =>
    intro l hl q hq
    by_cases hlen : l.length ≤ MAX_LINE_LENGTH
    · rw [split_line_short l hlen] at hq
      exact Or.inl (Nat.le_trans (pieces_length_le l q hq) hlen)
    · cases hp : pickSplit l.length (lineEnds l) with
      | none =>
        have hnil : lineEnds l = [] := pickSplit_none_nil _ _ hp
        rw [split_line_no_delineator l hnil] at hq
        rw [pieces_no_newline l (lineEnds_empty_no_newline l hnil)] at hq
        simp at hq
        subst hq
        refine Or.inr (fun e he => ?_)
        rw [hnil] at he
        simp at he
      | some s =>
        by_cases hs : l.length - 1 ≤ s
        · rw [split_line_late l s hp hs] at hq
          have hlate := ends_late_of_pick l s (Nat.lt_of_not_le hlen) hp hs
          exact Or.inr (endsLate_pieces l.length l (Nat.le_refl _) hlate q hq)
        · rw [split_line_rec l s hlen hp hs] at hq
          have hmem := pickSplit_mem _ _ _ hp
          have hlb := lineEnds_lb l s hmem
          rw [pieces_append_newline] at hq
          rcases List.mem_append.mp hq with h1 | h2
          · exact ih (l.take s) (by rw [List.length_take]; omega) q h1
          · exact ih (l.drop s) (by rw [List.length_drop]; omega) q h2

/-- C2 counterexample: the 41-character line of forty `a` followed by the
delineator `、` exceeds `MAX_LINE_LENGTH = 40` and contains a delineator,
yet `split_line` returns it unchanged as a single line (the chosen split
point `41` falls at the very end, `splitpos >= len(line)-1`), refuting
"never returns a result containing a line strictly longer than max_length
unless that line contains no delineator at all". -/
theorem C2_counterexample :
    pieces (split_line (List.replicate 40 'a' ++ ['、'])) =
      [List.replicate 40 'a' ++ ['、']] ∧
    MAX_LINE_LENGTH < (List.replicate 40 'a' ++ ['、']).length ∧
    lineEnds (List.replicate 40 'a' ++ ['、']) ≠ [] := by
  exact ⟨by decide, by decide, by decide⟩

/-- C2 (amended): every line in a `split_line` result that is strictly
longer than `MAX_LINE_LENGTH` has every delineator match ending at the
line's final position or one before it (in particular, a line with no
delineator at all satisfies this vacuously); and a unit with no
delineator match is returned as-is even if it exceeds the maximum. -/
theorem C2_split_line_max_length :
    (∀ (l : List Char), ∀ q ∈ pieces (split_line l),
      MAX_LINE_LENGTH < q.length → ∀ e ∈ lineEnds q, q.length - 1 ≤ e) ∧
    (∀ l : List Char, lineEnds l = [] → split_line l = l) := by
  constructor
  · intro l q hq hlong e he
    rcases split_line_pieces l.length l (Nat.le_refl _) q hq with hshort | hlate
    · omega
    · exact hlate e he
  · exact split_line_no_delineator

/-- Witness for C2 (amended) at the concrete line of forty `a` plus `、`:
it is a line of the result, is longer than 40, and its only delineator
match ends at position 41 = length. -/
theorem C2_split_line_max_length_witness :
    (List.replicate 40 'a' ++ ['、']) ∈
      pieces (split_line (List.replicate 40 'a' ++ ['、'])) ∧
    MAX_LINE_LENGTH < (List.replicate 40 'a' ++ ['、']).length ∧
    (∀ e ∈ lineEnds (List.replicate 40 'a' ++ ['、']),
      (List.replicate 40 'a' ++ ['、']).length - 1 ≤ e) :=
  ⟨by decide, by decide,
    C2_split_line_max_length.1 (List.replicate 40 'a' ++ ['、'])
      (List.replicate 40 'a' ++ ['、']) (by decide) (by decide)⟩

/-- C6: `split_line` returns any unit of length at most `MAX_LINE_LENGTH`
unchanged; whenever a split position is chosen it is a delineator match
end minimizing the distance `|split_offset - length/2|` (stated through
the doubled distance `key`); and when the chosen split point falls at the
very end (`len - 1 <= s`, which includes the exact end `s = len`), the
unit is returned unchanged. -/
theorem C6_split_choice :
    (∀ l : List Char, l.length ≤ MAX_LINE_LENGTH → split_line l = l) ∧
    (∀ (l : List Char) (s : Nat), pickSplit l.length (lineEnds l) = some s →
      s ∈ lineEnds l ∧ ∀ e ∈ lineEnds l, key l.length s ≤ key l.length e) ∧
    (∀ (l : List Char) (s : Nat), pickSplit l.length (lineEnds l) = some s →
      l.length - 1 ≤ s → split_line l = l) := by
  refine ⟨split_line_short, ?_, ?_⟩
  · intro l s hp
    exact ⟨pickSplit_mem _ _ _ hp, pickSplit_min _ _ _ hp⟩
  · intro l s hp hs
    exact split_line_late l s hp hs

/-- Witness for C6: a short unit is unchanged; on 41 `a` plus `、` the
chosen end 42 is a delineator boundary of minimal `key`; and since it
falls at the very end the unit is returned unchanged. -/
theorem C6_split_choice_witness :
    split_line ['a', 'b', 'c'] = ['a', 'b', 'c'] ∧
    (42 ∈ lineEnds (List.replicate 41 'a' ++ ['、']) ∧
      ∀ e ∈ lineEnds (List.replicate 41 'a' ++ ['、']),
        key (List.replicate 41 'a' ++ ['、']).length 42 ≤
          key (List.replicate 41 'a' ++ ['、']).length e) ∧
    split_line (List.replicate 41 'a' ++ ['、']) =
      List.replicate 41 'a' ++ ['、'] :=
  ⟨C6_split_choice.1 _ (by decide),
   C6_split_choice.2.1 _ 42 (by decide),
   C6_split_choice.2.2 _ 42 (by decide) (by decide)⟩

/-- C7: whenever `split_line` recurses (length above the maximum, a split
position chosen, and not at the very end), both recursive calls are on
strictly shorter strings than the caller's input, which is what makes the
recursion terminate. -/
theorem C7_split_recursion (l : List Char) (s : Nat)
    (hlen : MAX_LINE_LENGTH < l.length)
    (hp : pickSplit l.length (lineEnds l) = some s)
    (hs : ¬l.length - 1 ≤ s) :
    (l.take s).length < l.length ∧ (l.drop s).length < l.length ∧
    split_line l = split_line (l.take s) ++ '\n' :: split_line (l.drop s) := by
  have hmem := pickSplit_mem _ _ _ hp
  have hlb := lineEnds_lb l s hmem
  refine ⟨?_, ?_, split_line_rec l s (by omega) hp hs⟩
  · rw [List.length_take]
    omega
  · rw [List.length_drop]
    omega

/-- Witness for C7 on twenty `a`, `、`, twenty-five `b` (length 46): the
split at 21 recurses on halves of lengths 21 and 25, both below 46. -/
theorem C7_split_recursion_witness :
    ((List.replicate 20 'a' ++ '、' :: List.replicate 25 'b').take 21).length <
      (List.replicate 20 'a' ++ '、' :: List.replicate 25 'b').length ∧
    ((List.replicate 20 'a' ++ '、' :: List.replicate 25 'b').drop 21).length <
      (List.replicate 20 'a' ++ '、' :: List.replicate 25 'b').length ∧
    split_line (List.replicate 20 'a' ++ '、' :: List.replicate 25 'b') =
      split_line ((List.replicate 20 'a' ++ '、' :: List.replicate 25 'b').take 21) ++
        '\n' :: split_line ((List.replicate 20 'a' ++ '、' :: List.replicate 25 'b').drop 21) :=
  C7_split_recursion (List.replicate 20 'a' ++ '、' :: List.replicate 25 'b') 21
    (by decide) (by decide) (by decide)
